import Mathlib

/-!
Verification development for `m2v.py` (ismobaga/m2v), a manga-to-video
pipeline.  The Python source is shallowly embedded: raster images become a
`PImage` structure (dimensions plus a total pixel function), the PIL
operations used by the code (`new`, `paste`, `crop`, `resize`) become
explicit Lean functions, float arithmetic on scale factors becomes exact
rational arithmetic, and the side-effecting `main` driver becomes a pure
event-trace function.  Each definition carries a reference to the source
lines it embeds.
-/

/-- An RGB pixel: red, green, blue channel values. -/
abbrev Pixel := ℕ × ℕ × ℕ

/-- Pure black, the padding colour used by the contain-fit path
(`Image.new("RGB", (target_w, target_h), (0, 0, 0))`, m2v.py line 119). -/
def blackPx : Pixel := (0, 0, 0)

/-- A raster image: a width, a height and a total pixel map.  Only the
values of `pix` at coordinates below `width`×`height` are meaningful. -/
structure PImage where
  width : ℕ
  height : ℕ
  pix : ℕ → ℕ → Pixel

/-- Embeds `Image.new("RGB", (w, h), (0, 0, 0))` (m2v.py line 119): a
`w`×`h` image every pixel of which is black. -/
def newRGB (w h : ℕ) : PImage :=
  ⟨w, h, fun _ _ => blackPx⟩

/-- Embeds `canvas.paste(im, (left, top))` (m2v.py line 122): pixels inside
the pasted box come from `im`, pixels outside it keep the canvas value. -/
def pasteAt (canvas im : PImage) (left top : ℕ) : PImage :=
  ⟨canvas.width, canvas.height, fun x y =>
    if left ≤ x ∧ x < left + im.width ∧ top ≤ y ∧ y < top + im.height then
      im.pix (x - left) (y - top)
    else
      canvas.pix x y⟩

/-- Embeds `im.crop((l, t, l + w, t + h))` (m2v.py lines 81 and 113): the
result is `w`×`h`; in-bounds reads translate into the source, out-of-bounds
reads yield PIL's black fill. -/
def cropPIL (im : PImage) (l t w h : ℕ) : PImage :=
  ⟨w, h, fun x y =>
    if x + l < im.width ∧ y + t < im.height then im.pix (x + l) (y + t)
    else blackPx⟩

/-- Embeds Python `int(...)` applied to the non-negative float products of
m2v.py lines 109 and 117: truncation, which on non-negative rationals is
the floor. -/
def truncNat (q : ℚ) : ℕ :=
  (⌊q⌋).toNat

/-- Embeds `ensure_even_dimensions` (m2v.py lines 75-82): compute
`nw, nh = (w // 2) * 2, (h // 2) * 2`; if they differ from `(w, h)`, crop
to the box `(0, 0, nw, nh)` and rewrite the file.  The Boolean records
whether the file was rewritten (`im.save(img_path)` executed). -/
def ensureEvenDims (im : PImage) : PImage × Bool :=
  let nw := im.width / 2 * 2
  let nh := im.height / 2 * 2
  if (nw, nh) ≠ (im.width, im.height) then (cropPIL im 0 0 nw nh, true)
  else (im, false)

/-- Embeds `scale = min(target_w / w, target_h / h)` (m2v.py line 116). -/
def containScale (W H : ℕ) (im : PImage) : ℚ :=
  min ((W : ℚ) / im.width) ((H : ℚ) / im.height)

/-- Embeds `sw = int(w * scale)` for the contain branch (m2v.py line 117). -/
def containSW (W H : ℕ) (im : PImage) : ℕ :=
  truncNat ((im.width : ℚ) * containScale W H im)

/-- Embeds `sh = int(h * scale)` for the contain branch (m2v.py line 117). -/
def containSH (W H : ℕ) (im : PImage) : ℕ :=
  truncNat ((im.height : ℚ) * containScale W H im)

/-- Embeds `left = (target_w - sw) // 2` (m2v.py line 120). -/
def containLeft (W H : ℕ) (im : PImage) : ℕ :=
  (W - containSW W H im) / 2

/-- Embeds `top = (target_h - sh) // 2` (m2v.py line 121). -/
def containTop (W H : ℕ) (im : PImage) : ℕ :=
  (H - containSH W H im) / 2

/-- Embeds the contain branch of `make_frames` (m2v.py lines 114-123):
resize to `(sw, sh)`, then paste centred on a black `W`×`H` canvas at
`left = (W - sw) // 2`, `top = (H - sh) // 2`.  The external resampler
(`im.resize(..., Image.LANCZOS)`) is a parameter. -/
def containFit (resize : PImage → ℕ → ℕ → PImage) (W H : ℕ) (im : PImage) : PImage :=
  pasteAt (newRGB W H) (resize im (containSW W H im) (containSH W H im))
    (containLeft W H im) (containTop W H im)

/-- Embeds `scale = max(target_w / w, target_h / h)` (m2v.py line 108). -/
def coverScale (W H : ℕ) (im : PImage) : ℚ :=
  max ((W : ℚ) / im.width) ((H : ℚ) / im.height)

/-- Embeds `sw = int(w * scale)` for the cover branch (m2v.py line 109). -/
def coverSW (W H : ℕ) (im : PImage) : ℕ :=
  truncNat ((im.width : ℚ) * coverScale W H im)

/-- Embeds `sh = int(h * scale)` for the cover branch (m2v.py line 109). -/
def coverSH (W H : ℕ) (im : PImage) : ℕ :=
  truncNat ((im.height : ℚ) * coverScale W H im)

/-- Embeds `left = (sw - target_w) // 2` (m2v.py line 111). -/
def coverLeft (W H : ℕ) (im : PImage) : ℕ :=
  (coverSW W H im - W) / 2

/-- Embeds `top = (sh - target_h) // 2` (m2v.py line 112). -/
def coverTop (W H : ℕ) (im : PImage) : ℕ :=
  (coverSH W H im - H) / 2

/-- Embeds the cover branch of `make_frames` (m2v.py lines 106-113):
resize to `(sw, sh)`, then crop the centred `W`×`H` box at
`left = (sw - W) // 2`, `top = (sh - H) // 2`. -/
def coverFit (resize : PImage → ℕ → ℕ → PImage) (W H : ℕ) (im : PImage) : PImage :=
  cropPIL (resize im (coverSW W H im) (coverSH W H im))
    (coverLeft W H im) (coverTop W H im) W H

/-- Embeds one full per-image pass of `make_frames` in contain mode:
the fit transform (lines 114-123), the save, then
`ensure_even_dimensions(out)` (line 130). -/
def makeFrameContain (resize : PImage → ℕ → ℕ → PImage) (W H : ℕ) (im : PImage) : PImage :=
  (ensureEvenDims (containFit resize W H im)).1

/-- Embeds one full per-image pass of `make_frames` in cover mode:
the fit transform (lines 106-113), the save, then
`ensure_even_dimensions(out)` (line 130). -/
def makeFrameCover (resize : PImage → ℕ → ℕ → PImage) (W H : ℕ) (im : PImage) : PImage :=
  (ensureEvenDims (coverFit resize W H im)).1

/-- A fixed 4×4 test image used to instantiate general theorems. -/
def testImg : PImage :=
  ⟨4, 4, fun _ _ => (1, 2, 3)⟩

/-- A 3×5 test image used to instantiate the fit theorems. -/
def testImg35 : PImage :=
  ⟨3, 5, fun _ _ => (7, 7, 7)⟩

/-- A stub resampler used to instantiate general theorems: it produces the
requested dimensions and replicates the source's top-left pixel. -/
def resizeStub (im : PImage) (sw sh : ℕ) : PImage :=
  ⟨sw, sh, fun _ _ => im.pix 0 0⟩

/-- Pan directions accepted by the CLI (m2v.py line 262). -/
inductive Pan
  | center
  | left
  | right
  | up
  | down
deriving DecidableEq

/-- Embeds the zoompan zoom expression emitted at m2v.py line 212:
`if(lte(on, d), 1+(zoom-1)*on/d, zoom)`, as a function of the local
output-frame index `on`, for zoom target `z` and hold-frame count `d`. -/
def zoomE (z : ℚ) (d : ℕ) (onF : ℕ) : ℚ :=
  if onF ≤ d then 1 + (z - 1) * onF / d else z

/-- Embeds the zoompan `x` expressions emitted at m2v.py lines 194-208 as
functions of `on`, with `iw` the input width, `z` the zoom target and `d`
the hold-frame count; `zoom` in the source expression denotes `zoomE z d on`.
For left: `iw/2-(iw/zoom)/2 - (iw/zoom)*0.10*(on/d)`; for right the offset
is added; otherwise `iw/2-(iw/zoom)/2`. -/
def xExprE (p : Pan) (iw z : ℚ) (d onF : ℕ) : ℚ :=
  let zm := zoomE z d onF
  match p with
  | Pan.left => iw / 2 - (iw / zm) / 2 - (iw / zm) * (1/10) * ((onF : ℚ) / d)
  | Pan.right => iw / 2 - (iw / zm) / 2 + (iw / zm) * (1/10) * ((onF : ℚ) / d)
  | _ => iw / 2 - (iw / zm) / 2

/-- Embeds the zoompan `y` expressions emitted at m2v.py lines 194-208 with
`ih` the input height.  For up: `ih/2-(ih/zoom)/2 - (ih/zoom)*0.10*(on/d)`;
for down the offset is added; otherwise `ih/2-(ih/zoom)/2`. -/
def yExprE (p : Pan) (ih z : ℚ) (d onF : ℕ) : ℚ :=
  let zm := zoomE z d onF
  match p with
  | Pan.up => ih / 2 - (ih / zm) / 2 - (ih / zm) * (1/10) * ((onF : ℚ) / d)
  | Pan.down => ih / 2 - (ih / zm) / 2 + (ih / zm) * (1/10) * ((onF : ℚ) / d)
  | _ => ih / 2 - (ih / zm) / 2

/-- The pan-offset magnitude common to the four moving directions:
`(extent/zoom)*0.10*(on/d)`, the distance of the emitted x or y value from
the centred value `extent/2-(extent/zoom)/2`. -/
def panMag (extent z : ℚ) (d onF : ℕ) : ℚ :=
  (extent / zoomE z d onF) * (1/10) * ((onF : ℚ) / d)

/-- Embeds Python 3 `round` on a rational: round half to even. -/
def pyRound (q : ℚ) : ℤ :=
  if q - ⌊q⌋ < 1/2 then ⌊q⌋
  else if 1/2 < q - ⌊q⌋ then ⌊q⌋ + 1
  else if 2 ∣ ⌊q⌋ then ⌊q⌋ else ⌊q⌋ + 1

/-- Embeds `d = max(1, int(round(seconds_per_image * fps)))`
(m2v.py line 190). -/
def holdFrames (secondsPerImage : ℚ) (fps : ℕ) : ℤ :=
  max 1 (pyRound (secondsPerImage * fps))

/-- Embeds the mux argument list built at m2v.py lines 231-240:
`ffmpeg -y -i temp -i audio -c:v copy -c:a aac -b:a 192k -shortest out`. -/
def muxCmd (tempVideo audio out : String) : List String :=
  ["ffmpeg", "-y",
   "-i", tempVideo,
   "-i", audio,
   "-c:v", "copy",
   "-c:a", "aac",
   "-b:a", "192k",
   "-shortest",
   out]

/-- Modelled from the spec: the external compositor (not part of this
repository) truncates its output "to the shorter of the two input
durations" exactly when the constructed invocation carries the
stop-at-shortest flag; otherwise the longer stream determines the
duration. -/
def muxOutDuration (videoDur audioDur : ℚ) (cmd : List String) : ℚ :=
  if "-shortest" ∈ cmd then min videoDur audioDur else max videoDur audioDur

/-- Observable pipeline events, in the order `main` and its callees perform
them (m2v.py lines 266-309 and 85-132). -/
inductive Ev
  | checkFfmpeg
  | scriptRead
  | mkWorkDir
  | collectImgs
  | mkFramesDir
  | decode (i : ℕ)
  | fit (i : ℕ)
  | saveFrame (i : ℕ)
  | evenFix (i : ℕ)
  | ttsSynth
  | renderSilent
  | muxFinal
deriving DecidableEq

/-- Fatal-error classes raised through `die` (m2v.py lines 25-27). -/
inductive Err
  | ffmpegMissing
  | noImages
  | oddDims
  | edgeTtsMissing
deriving DecidableEq

/-- Embeds the body of the `make_frames` loop for one image with 1-based
index `i` (m2v.py lines 100-130): decode (`Image.open` + `convert`), the
fit transform, then the evenness check at lines 126-127 which `die`s
before `im.save` when `target_w` or `target_h` is odd; on the even path
the frame is saved and `ensure_even_dimensions` runs. -/
def frameStep (W H i : ℕ) : List Ev × Option Err :=
  if W % 2 ≠ 0 ∨ H % 2 ≠ 0 then
    ([Ev.decode i, Ev.fit i], some Err.oddDims)
  else
    ([Ev.decode i, Ev.fit i, Ev.saveFrame i, Ev.evenFix i], none)

/-- Embeds the `make_frames` loop over images `i, i+1, ...` for `k`
remaining images: the loop aborts at the first failing step. -/
def frameLoop (W H : ℕ) : ℕ → ℕ → List Ev × Option Err
  | _, 0 => ([], none)
  | i, k + 1 =>
    let s := frameStep W H i
    match s.2 with
    | some e => (s.1, some e)
    | none =>
      let r := frameLoop W H (i + 1) k
      (s.1 ++ r.1, r.2)

/-- Embeds `make_frames` on `n` images (m2v.py lines 85-132): create the
frames directory (line 98), then run the per-image loop from index 1. -/
def makeFramesTr (n W H : ℕ) : List Ev × Option Err :=
  let r := frameLoop W H 1 n
  (Ev.mkFramesDir :: r.1, r.2)

/-- Embeds the `main` driver (m2v.py lines 266-309) as an event trace over
an environment: whether the compositor binary is present (`check_ffmpeg`,
line 266), whether the narration-synthesis library is importable
(`edge_tts is None`, checked inside `synth_tts_edge` at lines 136-137),
the number of collected images `n`, and the canvas `W`×`H`.  Order of
stages: ffmpeg check, script read, temp work directory, image collection,
`make_frames`, TTS synthesis, silent render, mux. -/
def mainTr (ffmpegOk edgeTtsOk : Bool) (n W H : ℕ) : List Ev × Option Err :=
  if !ffmpegOk then ([Ev.checkFfmpeg], some Err.ffmpegMissing)
  else
    let pre := [Ev.checkFfmpeg, Ev.scriptRead, Ev.mkWorkDir]
    if n = 0 then (pre ++ [Ev.collectImgs], some Err.noImages)
    else
      let mf := makeFramesTr n W H
      match mf.2 with
      | some e => (pre ++ [Ev.collectImgs] ++ mf.1, some e)
      | none =>
        if !edgeTtsOk then
          (pre ++ [Ev.collectImgs] ++ mf.1, some Err.edgeTtsMissing)
        else
          (pre ++ [Ev.collectImgs] ++ mf.1 ++ [Ev.ttsSynth, Ev.renderSilent, Ev.muxFinal],
           none)

/-- Fuel-driven helper computing the most-significant-first decimal digit
list of a natural number; `fuel ≥ i` guarantees enough fuel. -/
def natDigitsF : ℕ → ℕ → List ℕ
  | 0, i => [i]
  | fuel + 1, i => if i < 10 then [i] else natDigitsF fuel (i / 10) ++ [i % 10]

/-- The decimal digit list (most significant first) of a natural number,
as Python renders an `int` in decimal (`0` renders as `[0]`). -/
def natDigits (i : ℕ) : List ℕ :=
  natDigitsF i i

/-- Embeds the Python format specification `{i:05d}` (m2v.py line 101):
the decimal digits of `i`, left-padded with zero digits to a minimum width
of five. -/
def format05 (i : ℕ) : List ℕ :=
  List.replicate (5 - (natDigits i).length) 0 ++ natDigits i

/-- Embeds the frame filename `f"frame_{i:05d}.png"` (m2v.py line 101). -/
def frameName (i : ℕ) : String :=
  "frame_" ++ List.asString ((format05 i).map Nat.digitChar) ++ ".png"

/-- The filenames produced by `make_frames` over `n` images, in input
order (`enumerate(images, start=1)`, m2v.py line 100). -/
def frameNames (n : ℕ) : List String :=
  (List.range n).map (fun k => frameName (k + 1))

/-- The exact `k`-digit decimal expansion (most significant first) of a
number below `10 ^ k`; reference form used to reason about `format05`. -/
def digitsK : ℕ → ℕ → List ℕ
  | 0, _ => []
  | k + 1, i => i / 10 ^ k :: digitsK k (i % 10 ^ k)

/-- Helper: when both dimensions are already even, `ensure_even_dimensions`
returns the image untouched and performs no rewrite. -/
theorem ensureEvenDims_even_noop (im : PImage) (hw : 2 ∣ im.width) (hh : 2 ∣ im.height) :
    ensureEvenDims im = (im, false) := by
  unfold ensureEvenDims
  simp [Nat.div_mul_cancel hw, Nat.div_mul_cancel hh]

/-- Helper: the image produced by `ensure_even_dimensions` has dimensions
`(w / 2 * 2, h / 2 * 2)`. -/
theorem ensureEvenDims_dims (im : PImage) :
    (ensureEvenDims im).1.width = im.width / 2 * 2 ∧
    (ensureEvenDims im).1.height = im.height / 2 * 2 := by
  simp only [ensureEvenDims]
  split
  · exact ⟨rfl, rfl⟩
  · next h =>
    rw [not_not, Prod.mk.injEq] at h
    exact ⟨h.1.symm, h.2.symm⟩

/-- C10: the defensive evenness fix-up maps a `w`×`h` image to size
`((w // 2) * 2, (h // 2) * 2)`, cropping only from the bottom/right so the
top-left region is preserved pixel for pixel; it is idempotent, and when
both dimensions are already even it leaves the image untouched with no
rewrite. -/
theorem ensure_even_dimensions_spec (im : PImage) :
    ((ensureEvenDims im).1.width = im.width / 2 * 2 ∧
     (ensureEvenDims im).1.height = im.height / 2 * 2) ∧
    (∀ x y, x < im.width / 2 * 2 → y < im.height / 2 * 2 →
      (ensureEvenDims im).1.pix x y = im.pix x y) ∧
    ensureEvenDims (ensureEvenDims im).1 = ((ensureEvenDims im).1, false) ∧
    (2 ∣ im.width → 2 ∣ im.height → ensureEvenDims im = (im, false)) := by
  refine ⟨ensureEvenDims_dims im, ?_, ?_, fun hw hh => ensureEvenDims_even_noop im hw hh⟩
  · intro x y hx hy
    have hxw : x < im.width := lt_of_lt_of_le hx (Nat.div_mul_le_self _ _)
    have hyh : y < im.height := lt_of_lt_of_le hy (Nat.div_mul_le_self _ _)
    simp only [ensureEvenDims]
    split
    · simp only [cropPIL, Nat.add_zero]
      rw [if_pos ⟨hxw, hyh⟩]
    · rfl
  · have hd := ensureEvenDims_dims im
    refine ensureEvenDims_even_noop _ ?_ ?_
    · rw [hd.1]; exact dvd_mul_left 2 _
    · rw [hd.2]; exact dvd_mul_left 2 _

/-- Witness for C10 at a concrete even-dimensioned image. -/
theorem ensure_even_dimensions_spec_witness :
    ensureEvenDims testImg = (testImg, false) :=
  (ensure_even_dimensions_spec testImg).2.2.2 (by decide) (by decide)

/-- C3: the emitted zoom expression satisfies `zoom(0) = 1`,
`zoom(d) = zoomTarget`, `zoom(on) = zoomTarget` for `on > d`, and equals
the linear ramp `1 + (zoomTarget - 1) * on / d` for `on ≤ d`, for any
`zoomTarget ≥ 1` and integer `d ≥ 1`. -/
theorem zoom_expr_spec (z : ℚ) (d : ℕ) (_hz : 1 ≤ z) (hd : 1 ≤ d) :
    zoomE z d 0 = 1 ∧ zoomE z d d = z ∧
    (∀ onF : ℕ, d < onF → zoomE z d onF = z) ∧
    (∀ onF : ℕ, onF ≤ d → zoomE z d onF = 1 + (z - 1) * onF / d) := by
  have hd0 : (d : ℚ) ≠ 0 := Nat.cast_ne_zero.mpr (by omega)
  refine ⟨?_, ?_, ?_, ?_⟩
  · simp [zoomE]
  · rw [zoomE, if_pos le_rfl, mul_div_assoc, div_self hd0, mul_one]
    ring
  · intro onF h
    rw [zoomE, if_neg (Nat.not_le.mpr h)]
  · intro onF h
    rw [zoomE, if_pos h]

/-- Witness for C3 at `zoomTarget = 3/2`, `d = 2`. -/
theorem zoom_expr_spec_witness :
    (1 : ℚ) ≤ 3/2 ∧ (1 : ℕ) ≤ 2 ∧ zoomE (3/2) 2 0 = 1 :=
  ⟨by norm_num, by norm_num, (zoom_expr_spec (3/2) 2 (by norm_num) (by norm_num)).1⟩

/-- C7: the hold-frame count is `max(1, round(secondsPerImage * fps))`
with Python rounding, hence `d ≥ 1` for every input, and `d` equals the
rounded product whenever that product is at least 1. -/
theorem hold_frames_spec :
    (∀ (s : ℚ) (fps : ℕ), 1 ≤ holdFrames s fps) ∧
    (∀ (s : ℚ) (fps : ℕ), 1 ≤ s * fps → holdFrames s fps = pyRound (s * fps)) := by
  constructor
  · intro s fps
    exact le_max_left _ _
  · intro s fps h
    have h1 : (1 : ℤ) ≤ ⌊s * (fps : ℚ)⌋ := Int.le_floor.mpr (by exact_mod_cast h)
    have h2 : ⌊s * (fps : ℚ)⌋ ≤ pyRound (s * fps) := by
      unfold pyRound
      split_ifs <;> omega
    exact max_eq_right (le_trans h1 h2)

/-- Witness for C7 at `secondsPerImage = 3`, `fps = 30`. -/
theorem hold_frames_spec_witness :
    holdFrames 3 30 = pyRound (3 * (30 : ℕ)) :=
  hold_frames_spec.2 3 30 (by norm_num)

/-- C9: the constructed mux invocation copies the video stream (`-c:v
copy`), re-encodes only the audio to AAC at the fixed bitrate 192k, and
carries `-shortest`, so under the compositor's stop-at-shortest semantics
the output duration is `min(videoDuration, audioDuration)`. -/
theorem mux_cmd_spec (tv au out : String) (vd ad : ℚ) :
    ["-c:v", "copy"] <:+: muxCmd tv au out ∧
    ["-c:a", "aac"] <:+: muxCmd tv au out ∧
    ["-b:a", "192k"] <:+: muxCmd tv au out ∧
    "-shortest" ∈ muxCmd tv au out ∧
    muxOutDuration vd ad (muxCmd tv au out) = min vd ad := by
  refine ⟨?_, ?_, ?_, ?_, ?_⟩
  · exact ⟨["ffmpeg", "-y", "-i", tv, "-i", au],
      ["-c:a", "aac", "-b:a", "192k", "-shortest", out], by simp [muxCmd]⟩
  · exact ⟨["ffmpeg", "-y", "-i", tv, "-i", au, "-c:v", "copy"],
      ["-b:a", "192k", "-shortest", out], by simp [muxCmd]⟩
  · exact ⟨["ffmpeg", "-y", "-i", tv, "-i", au, "-c:v", "copy", "-c:a", "aac"],
      ["-shortest", out], by simp [muxCmd]⟩
  · simp [muxCmd]
  · rw [muxOutDuration, if_pos (by simp [muxCmd])]

/-- Helper: with an odd target dimension, one pass of the `make_frames`
loop body decodes and resizes the image, then dies before saving. -/
theorem frameStep_odd (W H i : ℕ) (hodd : W % 2 ≠ 0 ∨ H % 2 ≠ 0) :
    frameStep W H i = ([Ev.decode i, Ev.fit i], some Err.oddDims) := by
  rw [frameStep, if_pos hodd]

/-- Helper: with even target dimensions, one pass of the `make_frames`
loop body decodes, resizes, saves and even-fixes the frame. -/
theorem frameStep_even (W H i : ℕ) (hW : W % 2 = 0) (hH : H % 2 = 0) :
    frameStep W H i = ([Ev.decode i, Ev.fit i, Ev.saveFrame i, Ev.evenFix i], none) := by
  rw [frameStep, if_neg]
  push_neg
  exact ⟨hW, hH⟩

/-- Helper: with an odd target dimension the frame loop stops inside the
first iteration, after the decode and resize of that image. -/
theorem frameLoop_odd (W H i k : ℕ) (hodd : W % 2 ≠ 0 ∨ H % 2 ≠ 0) :
    frameLoop W H i (k + 1) = ([Ev.decode i, Ev.fit i], some Err.oddDims) := by
  rw [frameLoop, frameStep_odd W H i hodd]

/-- Helper: with even target dimensions the frame loop completes: it
reports no error, saves every frame in its index range, and performs no
event other than per-frame normalization events. -/
theorem frameLoop_even (W H : ℕ) (hW : W % 2 = 0) (hH : H % 2 = 0) :
    ∀ k i, (frameLoop W H i k).2 = none ∧
      (∀ j, i ≤ j → j < i + k → Ev.saveFrame j ∈ (frameLoop W H i k).1) ∧
      Ev.ttsSynth ∉ (frameLoop W H i k).1 ∧
      Ev.renderSilent ∉ (frameLoop W H i k).1 ∧
      Ev.muxFinal ∉ (frameLoop W H i k).1 := by
  intro k
  induction k with
  | zero =>
    intro i
    refine ⟨rfl, ?_, by simp [frameLoop], by simp [frameLoop], by simp [frameLoop]⟩
    intro j h1 h2
    omega
  | succ k ih =>
    intro i
    rw [frameLoop, frameStep_even W H i hW hH]
    simp only [List.cons_append, List.nil_append, List.mem_cons, List.mem_append]
    obtain ⟨ih1, ih2, ih3, ih4, ih5⟩ := ih (i + 1)
    refine ⟨ih1, ?_, ?_, ?_, ?_⟩
    · intro j h1 h2
      by_cases hj : j = i
      · simp [hj]
      · have : Ev.saveFrame j ∈ (frameLoop W H (i + 1) k).1 :=
          ih2 j (by omega) (by omega)
        simp [this]
    · simp [ih3]
    · simp [ih4]
    · simp [ih5]

/-- Counterexample to C1: a run with canvas 1080×1921 (odd height) and one
image does decode and resize that image, and creates the working and
frames directories, before the configuration is rejected. -/
theorem odd_canvas_counterexample :
    mainTr true true 1 1080 1921 =
      ([Ev.checkFfmpeg, Ev.scriptRead, Ev.mkWorkDir, Ev.collectImgs,
        Ev.mkFramesDir, Ev.decode 1, Ev.fit 1], some Err.oddDims) ∧
    Ev.decode 1 ∈ (mainTr true true 1 1080 1921).1 ∧
    Ev.fit 1 ∈ (mainTr true true 1 1080 1921).1 ∧
    Ev.mkFramesDir ∈ (mainTr true true 1 1080 1921).1 := by
  refine ⟨by decide, by decide, by decide, by decide⟩

/-- C1 (amended): with an odd target width or height, every run fails with
the configuration error before any frame file is written, but only after
the temporary working and frames directories have been created and after
the first image has been decoded and resized: the check sits inside the
per-image loop, between the resize and the save. -/
theorem odd_canvas_rejection_spec (n W H : ℕ) (hn : 1 ≤ n)
    (hodd : W % 2 ≠ 0 ∨ H % 2 ≠ 0) :
    (mainTr true true n W H).2 = some Err.oddDims ∧
    (∀ i, Ev.saveFrame i ∉ (mainTr true true n W H).1) ∧
    Ev.decode 1 ∈ (mainTr true true n W H).1 ∧
    Ev.fit 1 ∈ (mainTr true true n W H).1 ∧
    Ev.mkFramesDir ∈ (mainTr true true n W H).1 ∧
    Ev.mkWorkDir ∈ (mainTr true true n W H).1 := by
  obtain ⟨k, rfl⟩ : ∃ k, n = k + 1 := ⟨n - 1, by omega⟩
  have hmf : makeFramesTr (k + 1) W H =
      ([Ev.mkFramesDir, Ev.decode 1, Ev.fit 1], some Err.oddDims) := by
    rw [makeFramesTr, frameLoop_odd W H 1 k hodd]
  have hmain : mainTr true true (k + 1) W H =
      ([Ev.checkFfmpeg, Ev.scriptRead, Ev.mkWorkDir, Ev.collectImgs,
        Ev.mkFramesDir, Ev.decode 1, Ev.fit 1], some Err.oddDims) := by
    rw [mainTr]
    simp [hmf]
  rw [hmain]
  refine ⟨rfl, ?_, by simp, by simp, by simp, by simp⟩
  intro i
  simp

/-- Witness for the amended C1 at `n = 1`, canvas 1080×1921. -/
theorem odd_canvas_rejection_spec_witness :
    (mainTr true true 1 1080 1921).2 = some Err.oddDims :=
  (odd_canvas_rejection_spec 1 1080 1921 le_rfl (by decide)).1

/-- Counterexample to C8: with the compositor present but the
narration-synthesis library absent, a run on one image and an even canvas
performs the whole image-normalization stage (including saving the frame)
before failing on the missing narration capability. -/
theorem tts_probe_counterexample :
    mainTr true false 1 4 4 =
      ([Ev.checkFfmpeg, Ev.scriptRead, Ev.mkWorkDir, Ev.collectImgs, Ev.mkFramesDir,
        Ev.decode 1, Ev.fit 1, Ev.saveFrame 1, Ev.evenFix 1], some Err.edgeTtsMissing) ∧
    Ev.saveFrame 1 ∈ (mainTr true false 1 4 4).1 := by
  refine ⟨by decide, by decide⟩

/-- C8 (amended): the compositor binary is probed first, at startup, and
its absence stops the run before any stage; the narration-synthesis
capability, however, is only checked when the synthesis stage runs, so its
absence is discovered after image normalization has completed (all frames
saved) though still before any render or mux step. -/
theorem startup_probe_spec :
    (∀ (edge : Bool) (n W H : ℕ),
      mainTr false edge n W H = ([Ev.checkFfmpeg], some Err.ffmpegMissing)) ∧
    (∀ n W H : ℕ, 1 ≤ n → W % 2 = 0 → H % 2 = 0 →
      (mainTr true false n W H).2 = some Err.edgeTtsMissing ∧
      Ev.saveFrame n ∈ (mainTr true false n W H).1 ∧
      Ev.ttsSynth ∉ (mainTr true false n W H).1 ∧
      Ev.renderSilent ∉ (mainTr true false n W H).1 ∧
      Ev.muxFinal ∉ (mainTr true false n W H).1) := by
  constructor
  · intro edge n W H
    rw [mainTr]
    simp
  · intro n W H hn hW hH
    obtain ⟨k, rfl⟩ : ∃ k, n = k + 1 := ⟨n - 1, by omega⟩
    obtain ⟨h1, h2, h3, h4, h5⟩ := frameLoop_even W H hW hH (k + 1) 1
    have hmf2 : (makeFramesTr (k + 1) W H).2 = none := by
      rw [makeFramesTr]
      exact h1
    have hmain : mainTr true false (k + 1) W H =
        ([Ev.checkFfmpeg, Ev.scriptRead, Ev.mkWorkDir, Ev.collectImgs] ++
          (makeFramesTr (k + 1) W H).1, some Err.edgeTtsMissing) := by
      rw [mainTr]
      simp only [Bool.not_true, Bool.not_false, if_false, if_true, Nat.succ_ne_zero,
        if_neg (Nat.succ_ne_zero k)]
      rcases hx : (makeFramesTr (k + 1) W H).2 with _ | e
      · simp [hx]
      · rw [hmf2] at hx
        exact absurd hx (by simp)
    rw [hmain]
    have hsave : Ev.saveFrame (k + 1) ∈ (makeFramesTr (k + 1) W H).1 := by
      rw [makeFramesTr]
      exact List.mem_cons_of_mem _ (h2 (k + 1) (by omega) (by omega))
    have hmf1 : (makeFramesTr (k + 1) W H).1 = Ev.mkFramesDir :: (frameLoop W H 1 (k + 1)).1 := by
      rw [makeFramesTr]
    refine ⟨rfl, by simp [hsave], ?_, ?_, ?_⟩ <;>
      simp [hmf1, h3, h4, h5]

/-- Witness for the amended C8 at `n = 1`, canvas 4×4. -/
theorem startup_probe_spec_witness :
    (mainTr true false 1 4 4).2 = some Err.edgeTtsMissing :=
  (startup_probe_spec.2 1 4 4 le_rfl rfl rfl).1

/-- Helper: `truncNat` is bounded by any natural number dominating its
argument. -/
theorem truncNat_le (q : ℚ) (n : ℕ) (h : q ≤ n) : truncNat q ≤ n := by
  unfold truncNat
  have h1 : ⌊q⌋ ≤ (n : ℤ) := by
    have := Int.floor_le_floor h
    rwa [Int.floor_natCast] at this
  exact Int.toNat_le.mpr h1

/-- Helper: `truncNat` dominates any natural number below its argument. -/
theorem le_truncNat (n : ℕ) (q : ℚ) (h : (n : ℚ) ≤ q) : n ≤ truncNat q := by
  unfold truncNat
  have h1 : (n : ℤ) ≤ ⌊q⌋ := Int.le_floor.mpr (by exact_mod_cast h)
  omega

/-- C4: contain-fit normalization yields an image of exactly `W`×`H` in
which the resized `sw`×`sh` source (with `sw = ⌊w * min(W/w, H/h)⌋` and
`sh` likewise, fitting inside the canvas) sits at offsets
`left = (W - sw) // 2`, `top = (H - sh) // 2`, and every canvas pixel
outside that centred region is pure black. -/
theorem contain_fit_spec (resize : PImage → ℕ → ℕ → PImage) (W H : ℕ) (im : PImage)
    (hw : 0 < im.width) (hh : 0 < im.height) (hW : 2 ∣ W) (hH : 2 ∣ H)
    (hr : ∀ im2 sw sh, (resize im2 sw sh).width = sw ∧ (resize im2 sw sh).height = sh) :
    (makeFrameContain resize W H im).width = W ∧
    (makeFrameContain resize W H im).height = H ∧
    containSW W H im ≤ W ∧ containSH W H im ≤ H ∧
    (∀ x y, containLeft W H im ≤ x → x < containLeft W H im + containSW W H im →
      containTop W H im ≤ y → y < containTop W H im + containSH W H im →
      (makeFrameContain resize W H im).pix x y =
        (resize im (containSW W H im) (containSH W H im)).pix
          (x - containLeft W H im) (y - containTop W H im)) ∧
    (∀ x y, x < W → y < H →
      (x < containLeft W H im ∨ containLeft W H im + containSW W H im ≤ x ∨
       y < containTop W H im ∨ containTop W H im + containSH W H im ≤ y) →
      (makeFrameContain resize W H im).pix x y = blackPx) := by
  have hw0 : (0 : ℚ) < (im.width : ℚ) := by exact_mod_cast hw
  have hh0 : (0 : ℚ) < (im.height : ℚ) := by exact_mod_cast hh
  have hsw : containSW W H im ≤ W := by
    apply truncNat_le
    calc (im.width : ℚ) * containScale W H im
        ≤ (im.width : ℚ) * ((W : ℚ) / im.width) :=
          mul_le_mul_of_nonneg_left (min_le_left _ _) (le_of_lt hw0)
      _ = W := by field_simp
  have hsh : containSH W H im ≤ H := by
    apply truncNat_le
    calc (im.height : ℚ) * containScale W H im
        ≤ (im.height : ℚ) * ((H : ℚ) / im.height) :=
          mul_le_mul_of_nonneg_left (min_le_right _ _) (le_of_lt hh0)
      _ = H := by field_simp
  have hrw := (hr im (containSW W H im) (containSH W H im)).1
  have hrh := (hr im (containSW W H im) (containSH W H im)).2
  have hcw : (containFit resize W H im).width = W := rfl
  have hch : (containFit resize W H im).height = H := rfl
  have hmf : makeFrameContain resize W H im = containFit resize W H im := by
    rw [makeFrameContain,
      ensureEvenDims_even_noop _ (by rw [hcw]; exact hW) (by rw [hch]; exact hH)]
  refine ⟨by rw [hmf]; exact hcw, by rw [hmf]; exact hch, hsw, hsh, ?_, ?_⟩
  · intro x y h1 h2 h3 h4
    rw [hmf]
    simp only [containFit, pasteAt]
    rw [if_pos ⟨h1, by rw [hrw]; exact h2, h3, by rw [hrh]; exact h4⟩]
  · intro x y hx hy hcase
    rw [hmf]
    simp only [containFit, pasteAt]
    rw [if_neg]
    · rfl
    rintro ⟨c1, c2, c3, c4⟩
    rw [hrw] at c2
    rw [hrh] at c4
    rcases hcase with h | h | h | h <;> omega

/-- Witness for C4: the 3×5 test image on a 6×4 canvas with the stub
resampler; the top-left canvas pixel is black and the canvas is 6×4. -/
theorem contain_fit_spec_witness :
    (makeFrameContain resizeStub 6 4 testImg35).width = 6 ∧
    (makeFrameContain resizeStub 6 4 testImg35).pix 0 0 = blackPx := by
  have h := contain_fit_spec resizeStub 6 4 testImg35 (by decide) (by decide)
    (by decide) (by decide) (fun im2 sw sh => ⟨rfl, rfl⟩)
  refine ⟨h.1, h.2.2.2.2.2 0 0 (by decide) (by decide) ?_⟩
  left
  show 0 < (6 - containSW 6 4 testImg35) / 2
  norm_num [containSW, containScale, truncNat, testImg35]
  decide

/-- C5: cover-fit normalization yields an image of exactly `W`×`H`,
obtained by cropping the resized `sw`×`sh` source (with
`sw = ⌊w * max(W/w, H/h)⌋` and `sh` likewise, covering the canvas) at
offsets `left = (sw - W) // 2`, `top = (sh - H) // 2`; the crop box lies
entirely inside the resized source, so every canvas pixel carries cropped
source content and none is padding. -/
theorem cover_fit_spec (resize : PImage → ℕ → ℕ → PImage) (W H : ℕ) (im : PImage)
    (hw : 0 < im.width) (hh : 0 < im.height) (hW : 2 ∣ W) (hH : 2 ∣ H)
    (hr : ∀ im2 sw sh, (resize im2 sw sh).width = sw ∧ (resize im2 sw sh).height = sh) :
    (makeFrameCover resize W H im).width = W ∧
    (makeFrameCover resize W H im).height = H ∧
    W ≤ coverSW W H im ∧ H ≤ coverSH W H im ∧
    coverLeft W H im + W ≤ coverSW W H im ∧
    coverTop W H im + H ≤ coverSH W H im ∧
    (∀ x y, x < W → y < H →
      (makeFrameCover resize W H im).pix x y =
        (resize im (coverSW W H im) (coverSH W H im)).pix
          (x + coverLeft W H im) (y + coverTop W H im)) := by
  have hw0 : (0 : ℚ) < (im.width : ℚ) := by exact_mod_cast hw
  have hh0 : (0 : ℚ) < (im.height : ℚ) := by exact_mod_cast hh
  have hsw : W ≤ coverSW W H im := by
    apply le_truncNat
    calc (W : ℚ) = ((W : ℚ) / im.width) * im.width := by field_simp
      _ ≤ coverScale W H im * im.width :=
          mul_le_mul_of_nonneg_right (le_max_left _ _) (le_of_lt hw0)
      _ = (im.width : ℚ) * coverScale W H im := mul_comm _ _
  have hsh : H ≤ coverSH W H im := by
    apply le_truncNat
    calc (H : ℚ) = ((H : ℚ) / im.height) * im.height := by field_simp
      _ ≤ coverScale W H im * im.height :=
          mul_le_mul_of_nonneg_right (le_max_right _ _) (le_of_lt hh0)
      _ = (im.height : ℚ) * coverScale W H im := mul_comm _ _
  have hleft : coverLeft W H im + W ≤ coverSW W H im := by
    have := Nat.div_le_self (coverSW W H im - W) 2
    unfold coverLeft
    omega
  have htop : coverTop W H im + H ≤ coverSH W H im := by
    have := Nat.div_le_self (coverSH W H im - H) 2
    unfold coverTop
    omega
  have hrw := (hr im (coverSW W H im) (coverSH W H im)).1
  have hrh := (hr im (coverSW W H im) (coverSH W H im)).2
  have hcw : (coverFit resize W H im).width = W := rfl
  have hch : (coverFit resize W H im).height = H := rfl
  have hmf : makeFrameCover resize W H im = coverFit resize W H im := by
    rw [makeFrameCover,
      ensureEvenDims_even_noop _ (by rw [hcw]; exact hW) (by rw [hch]; exact hH)]
  refine ⟨by rw [hmf]; exact hcw, by rw [hmf]; exact hch, hsw, hsh, hleft, htop, ?_⟩
  intro x y hx hy
  rw [hmf]
  simp only [coverFit, cropPIL]
  rw [if_pos ⟨by rw [hrw]; omega, by rw [hrh]; omega⟩]

/-- Witness for C5: the 3×5 test image on a 2×4 canvas with the stub
resampler; the canvas is 2×4 and the top-left pixel carries source
content. -/
theorem cover_fit_spec_witness :
    (makeFrameCover resizeStub 2 4 testImg35).width = 2 ∧
    (makeFrameCover resizeStub 2 4 testImg35).pix 0 0 = (7, 7, 7) := by
  have h := cover_fit_spec resizeStub 2 4 testImg35 (by decide) (by decide)
    (by decide) (by decide) (fun im2 sw sh => ⟨rfl, rfl⟩)
  exact ⟨h.1, (h.2.2.2.2.2.2 0 0 (by decide) (by decide)).trans rfl⟩

/-- Counterexample to C2: with extent 100, zoom target 2 and hold count
`d = 1`, the emitted left-pan offset magnitude is 5 at `on = d` but 10 at
`on = 2d`, exceeding the claimed bound `0.10 * extent / zoomTarget = 5`:
past the hold duration the offset keeps growing instead of staying pinned. -/
theorem pan_offset_counterexample :
    xExprE Pan.center 100 2 1 2 - xExprE Pan.left 100 2 1 2 = 10 ∧
    ¬ ((10 : ℚ) ≤ (1/10) * 100 / 2) ∧
    xExprE Pan.center 100 2 1 1 - xExprE Pan.left 100 2 1 1 = 5 := by
  refine ⟨?_, by norm_num, ?_⟩ <;> norm_num [xExprE, zoomE]

/-- C2 (amended): for each moving pan direction the offset magnitude of
the emitted x/y expression is `panMag`; `panMag` is monotonically
non-decreasing in `on` over all of `ℕ`, bounded by
`0.10 * extent / zoomTarget` on `0 ≤ on ≤ d`, and for `on ≥ d` equals
`0.10 * extent * on / (d * zoomTarget)`, which keeps growing with `on`
rather than staying pinned at its `on = d` value. -/
theorem pan_offset_spec (extent z : ℚ) (d : ℕ)
    (he : 0 ≤ extent) (hz : 1 ≤ z) (hd : 1 ≤ d) :
    (∀ onF : ℕ,
      xExprE Pan.center extent z d onF - xExprE Pan.left extent z d onF
        = panMag extent z d onF ∧
      xExprE Pan.right extent z d onF - xExprE Pan.center extent z d onF
        = panMag extent z d onF ∧
      yExprE Pan.center extent z d onF - yExprE Pan.up extent z d onF
        = panMag extent z d onF ∧
      yExprE Pan.down extent z d onF - yExprE Pan.center extent z d onF
        = panMag extent z d onF) ∧
    (∀ a b : ℕ, a ≤ b → panMag extent z d a ≤ panMag extent z d b) ∧
    (∀ onF : ℕ, onF ≤ d → panMag extent z d onF ≤ (1/10) * extent / z) ∧
    (∀ onF : ℕ, d ≤ onF →
      panMag extent z d onF = (1/10) * extent * onF / (d * z)) := by
  have hd0 : (0 : ℚ) < (d : ℚ) := by exact_mod_cast Nat.pos_of_ne_zero (by omega)
  have hz0 : (0 : ℚ) < z := lt_of_lt_of_le one_pos hz
  have hz1 : (0 : ℚ) ≤ z - 1 := by linarith
  have hzoom : ∀ x : ℕ, x ≤ d → (d : ℚ) * zoomE z d x = d + (z - 1) * x := by
    intro x hx
    rw [zoomE, if_pos hx]
    field_simp
  have hzoomT : ∀ x : ℕ, d ≤ x → zoomE z d x = z := by
    intro x hx
    rw [zoomE]
    split
    · next h =>
      have hxd : x = d := le_antisymm h hx
      subst hxd
      rw [mul_div_assoc, div_self (ne_of_gt hd0), mul_one]
      ring
    · rfl
  have hDpos : ∀ x : ℕ, (0 : ℚ) < d + (z - 1) * x := by
    intro x
    have : (0 : ℚ) ≤ (z - 1) * x := mul_nonneg hz1 (Nat.cast_nonneg x)
    linarith
  have hmag : ∀ x : ℕ,
      panMag extent z d x = extent * (1/10) * ((x : ℚ) / (d * zoomE z d x)) := by
    intro x
    rw [panMag]
    ring
  have hg : ∀ x : ℕ, x ≤ d →
      (x : ℚ) / (d * zoomE z d x) = (x : ℚ) / (d + (z - 1) * x) := by
    intro x hx
    rw [hzoom x hx]
  have hgT : ∀ x : ℕ, d ≤ x →
      (x : ℚ) / (d * zoomE z d x) = (x : ℚ) / (d * z) := by
    intro x hx
    rw [hzoomT x hx]
  have hdz : (0 : ℚ) < d * z := mul_pos hd0 hz0
  have gmono : ∀ a b : ℕ, a ≤ b →
      (a : ℚ) / (d * zoomE z d a) ≤ (b : ℚ) / (d * zoomE z d b) := by
    intro a b hab
    have hab' : (a : ℚ) ≤ b := by exact_mod_cast hab
    rcases le_or_lt b d with hbd | hdb
    · have had : a ≤ d := le_trans hab hbd
      rw [hg a had, hg b hbd, div_le_div_iff (hDpos a) (hDpos b)]
      have key : (a : ℚ) * d ≤ (b : ℚ) * d :=
        mul_le_mul_of_nonneg_right hab' (le_of_lt hd0)
      nlinarith [key]
    · rcases le_or_lt a d with had | hda
      · have h1 : (a : ℚ) / (d * zoomE z d a) ≤ (d : ℚ) / (d * zoomE z d d) := by
          rw [hg a had, hg d le_rfl, div_le_div_iff (hDpos a) (hDpos d)]
          have key : (a : ℚ) * d ≤ (d : ℚ) * d :=
            mul_le_mul_of_nonneg_right (by exact_mod_cast had) (le_of_lt hd0)
          nlinarith [key]
        have h2 : (d : ℚ) / (d * zoomE z d d) ≤ (b : ℚ) / (d * zoomE z d b) := by
          rw [hgT d le_rfl, hgT b (le_of_lt hdb)]
          exact (div_le_div_right hdz).mpr (by exact_mod_cast le_of_lt hdb)
        exact le_trans h1 h2
      · have hdb2 : d ≤ b := le_of_lt (lt_of_lt_of_le hda hab)
        rw [hgT a (le_of_lt hda), hgT b hdb2]
        exact (div_le_div_right hdz).mpr hab'
  have hco : (0 : ℚ) ≤ extent * (1/10) := mul_nonneg he (by norm_num)
  refine ⟨?_, ?_, ?_, ?_⟩
  · intro onF
    refine ⟨?_, ?_, ?_, ?_⟩ <;> simp only [xExprE, yExprE, panMag] <;> ring
  · intro a b hab
    rw [hmag a, hmag b]
    exact mul_le_mul_of_nonneg_left (gmono a b hab) hco
  · intro x hx
    rw [hmag x]
    calc extent * (1/10) * ((x : ℚ) / (d * zoomE z d x))
        ≤ extent * (1/10) * ((d : ℚ) / (d * zoomE z d d)) :=
          mul_le_mul_of_nonneg_left (gmono x d hx) hco
      _ = (1/10) * extent / z := by
          rw [hgT d le_rfl]
          field_simp
          ring
  · intro x hx
    rw [hmag x, hgT x hx]
    ring

/-- Witness for the amended C2 at extent 100, zoom target 2, `d = 1`. -/
theorem pan_offset_spec_witness :
    panMag 100 2 1 0 ≤ panMag 100 2 1 1 :=
  (pan_offset_spec 100 2 1 (by norm_num) (by norm_num) (by norm_num)).2.1 0 1
    (by norm_num)

/-- Helper: `natDigitsF` is independent of the fuel, once the fuel
dominates the argument. -/
theorem natDigitsF_congr : ∀ f1 f2 i : ℕ, i ≤ f1 → i ≤ f2 →
    natDigitsF f1 i = natDigitsF f2 i := by
  intro f1
  induction f1 with
  | zero =>
    intro f2 i h1 h2
    interval_cases i
    cases f2 with
    | zero => rfl
    | succ f => simp [natDigitsF]
  | succ f1 ih =>
    intro f2 i h1 h2
    cases f2 with
    | zero =>
      interval_cases i
      simp [natDigitsF]
    | succ f2 =>
      simp only [natDigitsF]
      by_cases h : i < 10
      · simp [h]
      · simp only [if_neg h]
        have hd : i / 10 < i := Nat.div_lt_self (by omega) (by omega)
        rw [ih f2 (i / 10) (by omega) (by omega)]

/-- Helper: the defining recurrence of the decimal digit list. -/
theorem natDigits_eq (i : ℕ) :
    natDigits i = if i < 10 then [i] else natDigits (i / 10) ++ [i % 10] := by
  rw [natDigits]
  cases i with
  | zero => simp [natDigitsF]
  | succ k =>
    simp only [natDigitsF]
    by_cases h : k + 1 < 10
    · simp [h]
    · simp only [if_neg h]
      have hd : (k + 1) / 10 < k + 1 := Nat.div_lt_self (by omega) (by omega)
      rw [natDigits, natDigitsF_congr k ((k + 1) / 10) ((k + 1) / 10) (by omega) le_rfl]

/-- Helper: a number below `10 ^ k` has at most `k` decimal digits. -/
theorem natDigits_len_le : ∀ i k : ℕ, i < 10 ^ k → 1 ≤ k →
    (natDigits i).length ≤ k := by
  intro i
  induction i using Nat.strong_induction_on with
  | _ i ih =>
    intro k hk h1
    by_cases h : i < 10
    · rw [natDigits_eq, if_pos h]
      simpa using h1
    · rw [natDigits_eq, if_neg h]
      have hk2 : 2 ≤ k := by
        by_contra hc
        push_neg at hc
        interval_cases k
        simp at hk
        omega
      have hd : i / 10 < i := Nat.div_lt_self (by omega) (by omega)
      have hdk : i / 10 < 10 ^ (k - 1) := by
        rw [Nat.div_lt_iff_lt_mul (by norm_num)]
        calc i < 10 ^ k := hk
          _ = 10 ^ (k - 1) * 10 := by
              rw [← pow_succ]
              congr 1
              omega
      have hlen := ih (i / 10) hd (k - 1) hdk (by omega)
      simp only [List.length_append, List.length_singleton]
      omega

/-- Helper: `digitsK k` always yields exactly `k` digits. -/
theorem digitsK_length : ∀ k i : ℕ, (digitsK k i).length = k := by
  intro k
  induction k with
  | zero => intro i; rfl
  | succ k ih => intro i; simp [digitsK, ih]

/-- Helper: the fixed-width expansion satisfies the least-significant-digit
recurrence. -/
theorem digitsK_append : ∀ k i : ℕ, i < 10 ^ (k + 1) →
    digitsK (k + 1) i = digitsK k (i / 10) ++ [i % 10] := by
  intro k
  induction k with
  | zero =>
    intro i h
    show i / 10 ^ 0 :: digitsK 0 (i % 10 ^ 0) = digitsK 0 (i / 10) ++ [i % 10]
    simp [digitsK, Nat.mod_eq_of_lt (by simpa using h)]
  | succ k ih =>
    intro i h
    have hmod : i % 10 ^ (k + 1) < 10 ^ (k + 1) := Nat.mod_lt _ (by positivity)
    have h1 : (i % 10 ^ (k + 1)) / 10 = (i / 10) % 10 ^ k := by
      rw [pow_succ']
      exact Nat.mod_mul_right_div_self i 10 (10 ^ k)
    have h2 : (i % 10 ^ (k + 1)) % 10 = i % 10 :=
      Nat.mod_mod_of_dvd i (dvd_pow_self 10 (Nat.succ_ne_zero k))
    have h3 : i / 10 / 10 ^ k = i / 10 ^ (k + 1) := by
      rw [Nat.div_div_eq_div_mul, pow_succ']
    show i / 10 ^ (k + 1) :: digitsK (k + 1) (i % 10 ^ (k + 1)) =
      digitsK (k + 1) (i / 10) ++ [i % 10]
    rw [ih _ hmod, h1, h2]
    show _ = (i / 10 / 10 ^ k :: digitsK k ((i / 10) % 10 ^ k)) ++ [i % 10]
    rw [h3]
    rfl

/-- Helper: the fixed-width expansion of a single digit is the digit
preceded by zeros. -/
theorem digitsK_small : ∀ k i : ℕ, i < 10 → 1 ≤ k →
    digitsK k i = List.replicate (k - 1) 0 ++ [i] := by
  intro k
  induction k with
  | zero => intro i h h1; omega
  | succ k ih =>
    intro i h h1
    by_cases hk : k = 0
    · subst hk
      show i / 10 ^ 0 :: digitsK 0 (i % 10 ^ 0) = List.replicate 0 0 ++ [i]
      simp [digitsK]
    · have hk1 : 1 ≤ k := by omega
      have h10k : i < 10 ^ k :=
        lt_of_lt_of_le h (by
          calc (10 : ℕ) = 10 ^ 1 := (pow_one 10).symm
            _ ≤ 10 ^ k := Nat.pow_le_pow_right (by norm_num) hk1)
      show i / 10 ^ k :: digitsK k (i % 10 ^ k) = List.replicate (k + 1 - 1) 0 ++ [i]
      rw [Nat.div_eq_of_lt h10k, Nat.mod_eq_of_lt h10k, ih i h hk1]
      rw [show k + 1 - 1 = (k - 1) + 1 by omega, List.replicate_succ]
      rfl

/-- Helper: padding the decimal digits of `i < 10 ^ k` with leading zeros
to width `k` yields exactly the fixed-width expansion `digitsK k i`. -/
theorem natDigits_pad : ∀ i k : ℕ, i < 10 ^ k → 1 ≤ k →
    List.replicate (k - (natDigits i).length) 0 ++ natDigits i = digitsK k i := by
  intro i
  induction i using Nat.strong_induction_on with
  | _ i ih =>
    intro k hk h1
    by_cases h : i < 10
    · rw [natDigits_eq, if_pos h]
      simp only [List.length_singleton]
      exact (digitsK_small k i h h1).symm
    · obtain ⟨k2, rfl⟩ : ∃ k2, k = k2 + 1 := ⟨k - 1, by omega⟩
      have hk2 : 1 ≤ k2 := by
        by_contra hc
        push_neg at hc
        interval_cases k2
        simp at hk
        omega
      have hd : i / 10 < i := Nat.div_lt_self (by omega) (by omega)
      have hdk : i / 10 < 10 ^ k2 := by
        rw [Nat.div_lt_iff_lt_mul (by norm_num)]
        calc i < 10 ^ (k2 + 1) := hk
          _ = 10 ^ k2 * 10 := pow_succ 10 k2
      have hih := ih (i / 10) hd k2 hdk hk2
      rw [natDigits_eq, if_neg h, digitsK_append k2 i hk]
      simp only [List.length_append, List.length_singleton]
      rw [show k2 + 1 - ((natDigits (i / 10)).length + 1)
        = k2 - (natDigits (i / 10)).length by omega]
      rw [← List.append_assoc, hih]

/-- Helper: for `i < 100000`, the padded format of `i` equals its exact
five-digit expansion. -/
theorem format05_eq (i : ℕ) (h : i < 100000) : format05 i = digitsK 5 i := by
  rw [format05]
  exact natDigits_pad i 5 (by rw [show (10 : ℕ) ^ 5 = 100000 from by norm_num]; exact h)
    (by norm_num)

/-- Helper: for `i < 100000`, the padded format has exactly five digits. -/
theorem format05_length (i : ℕ) (h : i < 100000) : (format05 i).length = 5 := by
  rw [format05_eq i h, digitsK_length]

/-- Helper: the decimal digit characters are strictly ordered like the
digits they render. -/
theorem digitChar_lt (a b : ℕ) (hb : b < 10) (hab : a < b) :
    Nat.digitChar a < Nat.digitChar b := by
  interval_cases b <;> interval_cases a <;> decide

/-- Helper: on numbers below `10 ^ k`, numeric order coincides with the
lexicographic order of the fixed-width digit-character expansions. -/
theorem digitsK_lex : ∀ k i j : ℕ, i < j → j < 10 ^ k →
    List.Lex (· < ·) ((digitsK k i).map Nat.digitChar)
      ((digitsK k j).map Nat.digitChar) := by
  intro k
  induction k with
  | zero =>
    intro i j hij hj
    simp at hj
    omega
  | succ k ih =>
    intro i j hij hj
    have hpos : 0 < 10 ^ k := by positivity
    have hb10 : j / 10 ^ k < 10 := by
      rw [Nat.div_lt_iff_lt_mul hpos]
      calc j < 10 ^ (k + 1) := hj
        _ = 10 * 10 ^ k := pow_succ' 10 k
    have hab : i / 10 ^ k ≤ j / 10 ^ k := Nat.div_le_div_right (le_of_lt hij)
    show List.Lex (· < ·)
      (Nat.digitChar (i / 10 ^ k) :: (digitsK k (i % 10 ^ k)).map Nat.digitChar)
      (Nat.digitChar (j / 10 ^ k) :: (digitsK k (j % 10 ^ k)).map Nat.digitChar)
    rcases lt_or_eq_of_le hab with hlt | heq
    · exact List.Lex.rel (digitChar_lt _ _ hb10 hlt)
    · rw [heq]
      refine List.Lex.cons (ih _ _ ?_ (Nat.mod_lt _ hpos))
      have h3 : 10 ^ k * (i / 10 ^ k) + i % 10 ^ k < 10 ^ k * (i / 10 ^ k) + j % 10 ^ k := by
        calc 10 ^ k * (i / 10 ^ k) + i % 10 ^ k = i := Nat.div_add_mod i (10 ^ k)
          _ < j := hij
          _ = 10 ^ k * (j / 10 ^ k) + j % 10 ^ k := (Nat.div_add_mod j (10 ^ k)).symm
          _ = 10 ^ k * (i / 10 ^ k) + j % 10 ^ k := by rw [heq]
      exact Nat.lt_of_add_lt_add_left h3

/-- Helper: appending suffixes preserves a lexicographic comparison of two
lists of equal length. -/
theorem lex_append_of_length_eq {α : Type} [LT α] :
    ∀ (l1 l2 s t : List α), l1.length = l2.length →
      List.Lex (· < ·) l1 l2 → List.Lex (· < ·) (l1 ++ s) (l2 ++ t)
  | _, _, _, _, hlen, List.Lex.nil => by simp at hlen
  | _, _, s, t, hlen, List.Lex.cons h =>
      List.Lex.cons (lex_append_of_length_eq _ _ s t (by simpa using hlen) h)
  | _, _, _, _, _hlen, List.Lex.rel h => List.Lex.rel h

/-- Helper: for indices up to 99999, frame filenames sort lexicographically
in index order. -/
theorem frameName_lt (i j : ℕ) (hij : i < j) (hj : j ≤ 99999) :
    frameName i < frameName j := by
  rw [String.lt_iff_toList_lt]
  have key : ∀ m : ℕ, (frameName m).toList
      = "frame_".toList ++ (((format05 m).map Nat.digitChar) ++ ".png".toList) := by
    intro m
    show ("frame_" ++ List.asString ((format05 m).map Nat.digitChar) ++ ".png").data = _
    rw [String.data_append, String.data_append]
    show ("frame_".data ++ ((format05 m).map Nat.digitChar)) ++ ".png".data = _
    rw [List.append_assoc]
    rfl
  rw [key i, key j]
  refine List.Lex.append_left _ ?_ _
  refine lex_append_of_length_eq _ _ _ _ ?_ ?_
  · simp [format05_length i (by omega), format05_length j (by omega)]
  · rw [format05_eq i (by omega), format05_eq j (by omega)]
    exact digitsK_lex 5 i j hij
      (by rw [show (10 : ℕ) ^ 5 = 100000 from by norm_num]; omega)

/-- Counterexample to C6: at the 1-based index 100000 the frame filename
uses six digits, so it is longer than the claimed fixed width and sorts
lexicographically before the name of index 99999, breaking the claimed
order for lists of 100000 or more images. -/
theorem frame_name_counterexample :
    frameName 100000 = "frame_100000.png" ∧
    (frameName 100000).length ≠ (frameName 1).length ∧
    frameName 100000 < frameName 99999 := by
  refine ⟨by decide, by decide, ?_⟩
  rw [String.lt_iff_toList_lt]
  decide

/-- C6 (amended): for every list of `N` images with `1 ≤ N ≤ 99999`, the
sequencer yields exactly `N` filenames; every index `1 ≤ i ≤ N` (the last
one included) gets a fixed-width 15-character `frame_XXXXX.png` name with
a five-digit zero-padded 1-based index, placed at position `i - 1` of the
output list; and the filenames sort lexicographically in exactly the input
order. -/
theorem frame_names_spec (N : ℕ) (hN1 : 1 ≤ N) (hN : N ≤ 99999) :
    (frameNames N).length = N ∧
    (∀ i, 1 ≤ i → i ≤ N →
      (frameName i).length = 15 ∧
      (frameNames N).get? (i - 1) = some (frameName i)) ∧
    (∀ i j, 1 ≤ i → i < j → j ≤ N → frameName i < frameName j) := by
  refine ⟨by simp [frameNames], ?_, ?_⟩
  · intro i h1 hi
    constructor
    · show ("frame_" ++ List.asString ((format05 i).map Nat.digitChar) ++ ".png").length = 15
      rw [String.length_append, String.length_append, List.length_asString,
        List.length_map, format05_length i (by omega)]
      rfl
    · rw [frameNames, List.get?_map, List.get?_range (by omega)]
      simp [Nat.sub_add_cancel h1]
  · intro i j _h1 hij hj
    exact frameName_lt i j hij (by omega)

/-- Witness for the amended C6 at `N = 3`: the list holds three names, the
last index gets the 15-character name `frame_00003.png` at position 2, and
names 1 and 2 are in lexical order. -/
theorem frame_names_spec_witness :
    (frameNames 3).length = 3 ∧
    (frameName 3).length = 15 ∧
    (frameNames 3).get? 2 = some (frameName 3) ∧
    frameName 1 < frameName 2 :=
  ⟨(frame_names_spec 3 (by norm_num) (by norm_num)).1,
   ((frame_names_spec 3 (by norm_num) (by norm_num)).2.1 3 (by norm_num) le_rfl).1,
   ((frame_names_spec 3 (by norm_num) (by norm_num)).2.1 3 (by norm_num) le_rfl).2,
   (frame_names_spec 3 (by norm_num) (by norm_num)).2.2 1 2 le_rfl (by norm_num)
     (by norm_num)⟩
